import Mathlib

/-!
Shallow embedding of `src/data.rs`: the declaration AST (`Variant`, `Fields`,
`Field`, `Visibility`), its synom-combinator parse routines, and its
`ToTokens` printers.  The token stream, the combinator library and the
collaborator types (`Ident`, `Expr`, `Type`, `Path`, `Attribute`,
`Delimited`) live outside `src/` and are modelled from the spec where noted.
-/

namespace Syn

/-! ## Token model

Modelled from the spec (section 6): an ordered sequence of lexical tokens —
identifiers/keywords (keywords are identifier tokens with a reserved
spelling), punctuation, literals, and delimiter-paired groups whose contents
form a nested token sequence. -/

inductive Delim where
  | paren
  | brace
  | bracket
deriving DecidableEq

inductive Tok where
  | ident (s : String)
  | punct (s : String)
  | lit (n : Nat)
  | group (d : Delim) (ts : List Tok)

/-- Spelling of the `pub` keyword token. -/
def kwPub : String := "pub"

/-- Spelling of the `crate` keyword token. -/
def kwCrate : String := "crate"

/-- Spelling of the `self` keyword token. -/
def kwSelf : String := "self"

/-- Spelling of the `super` keyword token. -/
def kwSuper : String := "super"

/-- Spelling of the `in` keyword token. -/
def kwIn : String := "in"

/-- Spelling of the colon punctuation token. -/
def pColon : String := ":"

/-- Spelling of the comma punctuation token. -/
def pComma : String := ","

/-- Spelling of the equals punctuation token. -/
def pEq : String := "="

/-- Spelling of the pound punctuation token that opens an outer attribute. -/
def pPound : String := "#"

/-- Spelling of the path-separator punctuation token. -/
def pPathSep : String := "::"

/-- Modelled from the spec: the keywords reserved in this grammar slice; an
`Identifier` collaborator token is a word that is none of these. -/
def reservedWords : List String := [kwPub, kwCrate, kwSelf, kwSuper, kwIn]

/-! ## Collaborator data types (not defined in `src/`, modelled from the spec) -/

/-- Modelled from the spec: `Attribute` is an external collaborator; an outer
attribute is a pound token followed by a bracket-delimited token group, and
the node keeps the bracketed content. -/
structure Attribute where
  content : List Tok

/-- Modelled from the spec: `Identifier` is an external collaborator; a
single non-keyword word token. -/
abbrev Ident := String

/-- Modelled from the spec: `Type` is an external collaborator, opaque to
this core; modelled as a single identifier token. (`Type` is reserved in
Lean, hence the name `Ty`.) -/
abbrev Ty := String

/-- Modelled from the spec: `Expression` is an external collaborator, opaque
to this core; modelled as a single literal or identifier token. -/
abbrev Expr := Tok

/-- Modelled from the spec: `Path` is an external collaborator; a mod-style
path is a non-empty `::`-separated sequence of word segments. -/
structure Path where
  segments : List String

/-- Modelled from the spec: `Delimited` is the comma-separated list
collaborator; each item carries the separator token that follows it, if
any (only the last item may lack one in parsed lists). -/
structure Delimited (α : Type) where
  inner : List (α × Option Unit)

/-! ## Declaration AST (from `src/data.rs` lines 4-89) -/

/-- Visibility `pub`. Token payloads carry no information beyond spans, so
they are modelled as `Unit`. -/
structure VisPublic where
  pub_token : Unit

/-- Visibility `pub(crate)`. -/
structure VisCrate where
  pub_token : Unit
  paren_token : Unit
  crate_token : Unit

/-- Visibility `pub(self)`, `pub(super)` or `pub(in some::module)`. -/
structure VisRestricted where
  pub_token : Unit
  paren_token : Unit
  in_token : Option Unit
  path : Path

/-- Visibility level of an item. -/
inductive Visibility where
  | Public (v : VisPublic)
  | Crate (v : VisCrate)
  | Restricted (v : VisRestricted)
  | Inherited

/-- A field of a struct or enum variant. -/
structure Field where
  attrs : List Attribute
  vis : Visibility
  ident : Option Ident
  colon_token : Option Unit
  ty : Ty

/-- Named fields of a struct or struct variant. -/
structure FieldsNamed where
  brace_token : Unit
  fields : Delimited Field

/-- Unnamed fields of a tuple struct or tuple variant. -/
structure FieldsUnnamed where
  paren_token : Unit
  fields : Delimited Field

/-- Data stored within an enum variant or struct. -/
inductive Fields where
  | Named (f : FieldsNamed)
  | Unnamed (f : FieldsUnnamed)
  | Unit

/-- An enum variant. -/
structure Variant where
  attrs : List Attribute
  ident : Ident
  fields : Fields
  discriminant : Option (Unit × Expr)

/-! ## Parser combinators

Modelled from the spec (section 4.2): a parser maps the remaining tokens to
either a parsed value with the tokens after it, or a failure; alternation
backtracks by re-running the next branch on the original position. -/

/-- Parser type: remaining tokens in, parsed value and remaining tokens out. -/
def P (α : Type) : Type := List Tok → Option (α × List Tok)

/-- Modelled from the spec: ordered alternation of two branches with
backtracking — the second branch restarts from the original position. -/
def alt2 {α : Type} (p q : P α) : P α := fun ts =>
  match p ts with
  | some r => some r
  | none => q ts

/-- Modelled from the spec: literal keyword matcher — succeeds iff the next
token is an identifier token with exactly this spelling. -/
def keywordP (s : String) : P Unit := fun ts =>
  match ts with
  | Tok.ident t :: rest => if t = s then some ((), rest) else none
  | _ => none

/-- Modelled from the spec: literal punctuation matcher. -/
def punctP (s : String) : P Unit := fun ts =>
  match ts with
  | Tok.punct t :: rest => if t = s then some ((), rest) else none
  | _ => none

/-- Modelled from the spec: `Identifier` collaborator parse — one word token
that is not a reserved keyword. -/
def identP : P Ident := fun ts =>
  match ts with
  | Tok.ident t :: rest => if t ∈ reservedWords then none else some (t, rest)
  | _ => none

/-- Modelled from the spec: `Type` collaborator parse — one non-keyword word
token naming the type. -/
def tyP : P Ty := fun ts =>
  match ts with
  | Tok.ident t :: rest => if t ∈ reservedWords then none else some (t, rest)
  | _ => none

/-- Modelled from the spec: `Expression` collaborator parse — one literal or
non-keyword word token, kept verbatim. -/
def exprP : P Expr := fun ts =>
  match ts with
  | Tok.lit n :: rest => some (Tok.lit n, rest)
  | Tok.ident t :: rest => if t ∈ reservedWords then none else some (Tok.ident t, rest)
  | _ => none

/-- Modelled from the spec: `Attribute::parse_outer` collaborator parse — a
pound token followed by a bracket group. -/
def attrParseOuter : P Attribute := fun ts =>
  match ts with
  | Tok.punct h :: Tok.group Delim.bracket inner :: rest =>
      if h = pPound then some (⟨inner⟩, rest) else none
  | _ => none

/-- Modelled from the spec: zero-or-more repetition, fuelled by the input
length (each successful step of the parsers used here consumes at least one
token, so the fuel is never exhausted). -/
def many0Aux {α : Type} (p : P α) : Nat → P (List α)
  | 0 => fun ts => some ([], ts)
  | n + 1 => fun ts =>
    match p ts with
    | none => some ([], ts)
    | some (a, rest) =>
      match many0Aux p n rest with
      | some (xs, rest2) => some (a :: xs, rest2)
      | none => none

/-- Modelled from the spec: zero-or-more repetition. -/
def many0 {α : Type} (p : P α) : P (List α) := fun ts => many0Aux p (ts.length + 1) ts

/-- Modelled from the spec: delimiter-group combinator (`parens!`,
`braces!`) — consumes one group token of the given delimiter kind and
requires the inner parser to consume the whole group content. -/
def groupP {α : Type} (d : Delim) (p : P α) : P α := fun ts =>
  match ts with
  | Tok.group d2 inner :: rest =>
    if d2 = d then
      match p inner with
      | some (a, []) => some (a, rest)
      | _ => none
    else none
  | _ => none

/-- Modelled from the spec: optional combinator — on inner failure succeed
with `none` at the original position. -/
def optionP {α : Type} (p : P α) : P (Option α) := fun ts =>
  match p ts with
  | some (a, rest) => some (some a, rest)
  | none => some (none, ts)

/-- Modelled from the spec: first path segment — any word token. -/
def pathSegFirst : P String := fun ts =>
  match ts with
  | Tok.ident t :: rest => some (t, rest)
  | _ => none

/-- Modelled from the spec: subsequent path segment — a `::` separator
followed by a word token. -/
def pathSegTail : P String := fun ts =>
  match ts with
  | Tok.punct h :: Tok.ident t :: rest =>
      if h = pPathSep then some (t, rest) else none
  | _ => none

/-- Modelled from the spec: `Path::parse_mod_style` collaborator parse — a
word segment followed by zero or more `::`-separated word segments. -/
def parse_mod_style : P Path := fun ts =>
  match pathSegFirst ts with
  | none => none
  | some (s, rest) =>
    match many0 pathSegTail rest with
    | some (ss, rest2) => some (⟨s :: ss⟩, rest2)
    | none => none

/-- Modelled from the spec: `Delimited::parse_terminated_with` — items
separated by commas with an optional trailing comma, consuming the entire
input slice (it runs inside a delimiter group). Fuelled by input length. -/
def parseTermAux {α : Type} (p : P α) : Nat → List Tok → Option (List (α × Option Unit))
  | _, [] => some []
  | 0, _ => none
  | n + 1, ts =>
    match p ts with
    | none => none
    | some (a, rest) =>
      match rest with
      | [] => some [(a, none)]
      | Tok.punct h :: rest2 =>
        if h = pComma then
          match parseTermAux p n rest2 with
          | some items => some ((a, some ()) :: items)
          | none => none
        else none
      | _ => none

/-- Modelled from the spec: `Delimited::parse_terminated_with`, wrapped as a
parser that consumes its whole input slice. -/
def parse_terminated_with {α : Type} (p : P α) : P (Delimited α) := fun ts =>
  match parseTermAux p (ts.length + 1) ts with
  | some items => some (⟨items⟩, [])
  | none => none

/-! ## Parse routines (from `src/data.rs` lines 97-233) -/

/-- Branch 1 of `Visibility::parse`: `pub` then parenthesized `crate`. -/
def visCrateBranch : P Visibility := fun ts =>
  match keywordP kwPub ts with
  | none => none
  | some (_, r1) =>
    match groupP Delim.paren (keywordP kwCrate) r1 with
    | none => none
    | some (_, r2) => some (Visibility.Crate ⟨(), (), ()⟩, r2)

/-- Branch 2 of `Visibility::parse`: `pub` then parenthesized `self`;
`in_token` is `None` and the captured keyword becomes a one-segment path. -/
def visSelfBranch : P Visibility := fun ts =>
  match keywordP kwPub ts with
  | none => none
  | some (_, r1) =>
    match groupP Delim.paren (keywordP kwSelf) r1 with
    | none => none
    | some (_, r2) => some (Visibility.Restricted ⟨(), (), none, ⟨[kwSelf]⟩⟩, r2)

/-- Branch 3 of `Visibility::parse`: `pub` then parenthesized `super`. -/
def visSuperBranch : P Visibility := fun ts =>
  match keywordP kwPub ts with
  | none => none
  | some (_, r1) =>
    match groupP Delim.paren (keywordP kwSuper) r1 with
    | none => none
    | some (_, r2) => some (Visibility.Restricted ⟨(), (), none, ⟨[kwSuper]⟩⟩, r2)

/-- Inner parser of branch 4: `in` keyword then a mod-style path. -/
def visInInner : P (Unit × Path) := fun ts =>
  match keywordP kwIn ts with
  | none => none
  | some (_, r1) =>
    match parse_mod_style r1 with
    | none => none
    | some (p, r2) => some (((), p), r2)

/-- Branch 4 of `Visibility::parse`: `pub` then parenthesized `in` + path;
`in_token` is always `Some`. -/
def visInBranch : P Visibility := fun ts =>
  match keywordP kwPub ts with
  | none => none
  | some (_, r1) =>
    match groupP Delim.paren visInInner r1 with
    | none => none
    | some ((t, p), r2) => some (Visibility.Restricted ⟨(), (), some t, p⟩, r2)

/-- Branch 5 of `Visibility::parse`: bare `pub`. -/
def visPubBranch : P Visibility := fun ts =>
  match keywordP kwPub ts with
  | none => none
  | some (_, r1) => some (Visibility.Public ⟨()⟩, r1)

/-- Branch 6 of `Visibility::parse`: `epsilon!` — consume nothing, yield
`Inherited`. -/
def visEpsilonBranch : P Visibility := fun ts => some (Visibility.Inherited, ts)

/-- `Visibility::parse`: the six branches in source order under backtracking
ordered alternation. -/
def Visibility.parse : P Visibility :=
  alt2 visCrateBranch (alt2 visSelfBranch (alt2 visSuperBranch
    (alt2 visInBranch (alt2 visPubBranch visEpsilonBranch))))

/-- `Field::parse_named`: attributes, visibility, identifier, colon, type;
`ident` and `colon_token` are both set to `Some`. -/
def Field.parse_named : P Field := fun ts =>
  match many0 attrParseOuter ts with
  | none => none
  | some (attrs, r1) =>
    match Visibility.parse r1 with
    | none => none
    | some (vis, r2) =>
      match identP r2 with
      | none => none
      | some (id, r3) =>
        match punctP pColon r3 with
        | none => none
        | some (_, r4) =>
          match tyP r4 with
          | none => none
          | some (ty, r5) => some (⟨attrs, vis, some id, some (), ty⟩, r5)

/-- `Field::parse_unnamed`: attributes, visibility, type; `ident` and
`colon_token` are both `None`. -/
def Field.parse_unnamed : P Field := fun ts =>
  match many0 attrParseOuter ts with
  | none => none
  | some (attrs, r1) =>
    match Visibility.parse r1 with
    | none => none
    | some (vis, r2) =>
      match tyP r2 with
      | none => none
      | some (ty, r3) => some (⟨attrs, vis, none, none, ty⟩, r3)

/-- `FieldsNamed::parse`: a brace group holding a comma-terminated list of
named fields. -/
def FieldsNamed.parse : P FieldsNamed := fun ts =>
  match groupP Delim.brace (parse_terminated_with Field.parse_named) ts with
  | none => none
  | some (d, rest) => some (⟨(), d⟩, rest)

/-- `FieldsUnnamed::parse`: a paren group holding a comma-terminated list of
unnamed fields. -/
def FieldsUnnamed.parse : P FieldsUnnamed := fun ts =>
  match groupP Delim.paren (parse_terminated_with Field.parse_unnamed) ts with
  | none => none
  | some (d, rest) => some (⟨(), d⟩, rest)

/-- The fields alternation inside `Variant::parse`: named fields, else
unnamed fields, else epsilon yielding `Fields::Unit`. -/
def fieldsAlt : P Fields :=
  alt2
    (fun ts =>
      match FieldsNamed.parse ts with
      | some (f, r) => some (Fields.Named f, r)
      | none => none)
    (alt2
      (fun ts =>
        match FieldsUnnamed.parse ts with
        | some (f, r) => some (Fields.Unnamed f, r)
        | none => none)
      (fun ts => some (Fields.Unit, ts)))

/-- The discriminant parser inside `Variant::parse`: an equals token then an
expression. -/
def discrP : P (Unit × Expr) := fun ts =>
  match punctP pEq ts with
  | none => none
  | some (_, r1) =>
    match exprP r1 with
    | none => none
    | some (e, r2) => some (((), e), r2)

/-- `Variant::parse`: attributes, identifier, fields alternation, optional
discriminant. -/
def Variant.parse : P Variant := fun ts =>
  match many0 attrParseOuter ts with
  | none => none
  | some (attrs, r1) =>
    match identP r1 with
    | none => none
    | some (id, r2) =>
      match fieldsAlt r2 with
      | none => none
      | some (fs, r3) =>
        match optionP discrP r3 with
        | none => none
        | some (d, r4) => some (⟨attrs, id, fs, d⟩, r4)

/-! ## Printers (from `src/data.rs` lines 237-307) -/

/-- Modelled from the spec: `Attribute` printing — the pound token then the
bracket group, verbatim. -/
def Attribute.to_tokens (a : Attribute) : List Tok :=
  [Tok.punct pPound, Tok.group Delim.bracket a.content]

/-- Token output of a list of attributes (`tokens.append_all(attrs)`). -/
def printAttrs (xs : List Attribute) : List Tok :=
  (xs.map Attribute.to_tokens).flatten

/-- Modelled from the spec: `Path` printing — segments joined by `::`. -/
def Path.to_tokens (p : Path) : List Tok :=
  match p.segments with
  | [] => []
  | s :: ss => Tok.ident s :: (ss.map (fun t => [Tok.punct pPathSep, Tok.ident t])).flatten

/-- `VisPublic::to_tokens`: the `pub` token. -/
def VisPublic.to_tokens (_ : VisPublic) : List Tok := [Tok.ident kwPub]

/-- `VisCrate::to_tokens`: `pub` then a paren group around `crate`. -/
def VisCrate.to_tokens (_ : VisCrate) : List Tok :=
  [Tok.ident kwPub, Tok.group Delim.paren [Tok.ident kwCrate]]

/-- `VisRestricted::to_tokens`: `pub` then a paren group around the stored
`in_token` (emitted exactly as captured) and the stored path. -/
def VisRestricted.to_tokens (v : VisRestricted) : List Tok :=
  [Tok.ident kwPub,
   Tok.group Delim.paren
     ((match v.in_token with
       | some _ => [Tok.ident kwIn]
       | none => []) ++ v.path.to_tokens)]

/-- `Visibility` printing: dispatch on the tag; `Inherited` emits nothing. -/
def Visibility.to_tokens : Visibility → List Tok
  | Visibility.Public v => v.to_tokens
  | Visibility.Crate v => v.to_tokens
  | Visibility.Restricted v => v.to_tokens
  | Visibility.Inherited => []

/-- `TokensOrDefault` applied to the colon token: emits the stored token, or
a default-synthesized colon when it is absent. -/
def tokensOrDefaultColon : Option Unit → List Tok
  | some _ => [Tok.punct pColon]
  | none => [Tok.punct pColon]

/-- `Field::to_tokens`: attributes, visibility, then — only when `ident` is
present — the identifier and `TokensOrDefault(colon_token)`, then the type. -/
def Field.to_tokens (f : Field) : List Tok :=
  printAttrs f.attrs ++ f.vis.to_tokens ++
    (match f.ident with
     | some i => Tok.ident i :: tokensOrDefaultColon f.colon_token
     | none => []) ++ [Tok.ident f.ty]

/-- `Delimited` printing: each item followed by its separator, if stored. -/
def Delimited.to_tokens {α : Type} (pr : α → List Tok) (d : Delimited α) : List Tok :=
  (d.inner.map (fun x =>
    pr x.1 ++
      (match x.2 with
       | some _ => [Tok.punct pComma]
       | none => []))).flatten

/-- `FieldsNamed::to_tokens`: the brace group surrounding the fields. -/
def FieldsNamed.to_tokens (f : FieldsNamed) : List Tok :=
  [Tok.group Delim.brace (Delimited.to_tokens Field.to_tokens f.fields)]

/-- `FieldsUnnamed::to_tokens`: the paren group surrounding the fields. -/
def FieldsUnnamed.to_tokens (f : FieldsUnnamed) : List Tok :=
  [Tok.group Delim.paren (Delimited.to_tokens Field.to_tokens f.fields)]

/-- `Fields` printing: dispatch on the tag; `Unit` emits nothing. -/
def Fields.to_tokens : Fields → List Tok
  | Fields.Named f => f.to_tokens
  | Fields.Unnamed f => f.to_tokens
  | Fields.Unit => []

/-- Modelled from the spec: `Expression` printing — the captured token,
verbatim. -/
def Expr.to_tokens (e : Expr) : List Tok := [e]

/-- `Variant::to_tokens`: attributes, identifier, fields, then the equals
token and discriminant expression when present. -/
def Variant.to_tokens (v : Variant) : List Tok :=
  printAttrs v.attrs ++ [Tok.ident v.ident] ++ v.fields.to_tokens ++
    (match v.discriminant with
     | some (_, e) => Tok.punct pEq :: Expr.to_tokens e
     | none => [])

/-! ## Inversion lemmas for the primitive parsers -/

theorem keywordP_some {s : String} {ts rest : List Tok} {u : Unit}
    (h : keywordP s ts = some (u, rest)) : ts = Tok.ident s :: rest := by
  cases ts with
  | nil => simp [keywordP] at h
  | cons t r =>
    cases t with
    | ident w =>
      simp only [keywordP] at h
      split at h
      · rename_i hw
        subst hw
        cases h
        rfl
      · cases h
    | punct w => simp [keywordP] at h
    | lit n => simp [keywordP] at h
    | group d l => simp [keywordP] at h

theorem punctP_some {s : String} {ts rest : List Tok} {u : Unit}
    (h : punctP s ts = some (u, rest)) : ts = Tok.punct s :: rest := by
  cases ts with
  | nil => simp [punctP] at h
  | cons t r =>
    cases t with
    | punct w =>
      simp only [punctP] at h
      split at h
      · rename_i hw
        subst hw
        cases h
        rfl
      · cases h
    | ident w => simp [punctP] at h
    | lit n => simp [punctP] at h
    | group d l => simp [punctP] at h

theorem identP_some {ts rest : List Tok} {i : Ident}
    (h : identP ts = some (i, rest)) : ts = Tok.ident i :: rest := by
  cases ts with
  | nil => simp [identP] at h
  | cons t r =>
    cases t with
    | ident w =>
      simp only [identP] at h
      split at h
      · cases h
      · cases h
        rfl
    | punct w => simp [identP] at h
    | lit n => simp [identP] at h
    | group d l => simp [identP] at h

theorem tyP_some {ts rest : List Tok} {t : Ty}
    (h : tyP ts = some (t, rest)) : ts = Tok.ident t :: rest := by
  cases ts with
  | nil => simp [tyP] at h
  | cons tok r =>
    cases tok with
    | ident w =>
      simp only [tyP] at h
      split at h
      · cases h
      · cases h
        rfl
    | punct w => simp [tyP] at h
    | lit n => simp [tyP] at h
    | group d l => simp [tyP] at h

theorem exprP_some {ts rest : List Tok} {e : Expr}
    (h : exprP ts = some (e, rest)) : ts = e :: rest := by
  cases ts with
  | nil => simp [exprP] at h
  | cons tok r =>
    cases tok with
    | ident w =>
      simp only [exprP] at h
      split at h
      · cases h
      · cases h
        rfl
    | lit n =>
      simp only [exprP] at h
      cases h
      rfl
    | punct w => simp [exprP] at h
    | group d l => simp [exprP] at h

theorem attrP_some {ts rest : List Tok} {a : Attribute}
    (h : attrParseOuter ts = some (a, rest)) :
    ts = Tok.punct pPound :: Tok.group Delim.bracket a.content :: rest := by
  cases ts with
  | nil => simp [attrParseOuter] at h
  | cons tok r =>
    cases tok with
    | punct w =>
      cases r with
      | nil => simp [attrParseOuter] at h
      | cons tok2 r2 =>
        cases tok2 with
        | group d inner =>
          cases d with
          | bracket =>
            simp only [attrParseOuter] at h
            split at h
            · rename_i hw
              subst hw
              cases h
              rfl
            · cases h
          | paren => simp [attrParseOuter] at h
          | brace => simp [attrParseOuter] at h
        | ident w2 => simp [attrParseOuter] at h
        | punct w2 => simp [attrParseOuter] at h
        | lit n => simp [attrParseOuter] at h
    | ident w => simp [attrParseOuter] at h
    | lit n => simp [attrParseOuter] at h
    | group d l => simp [attrParseOuter] at h

theorem groupP_some {α : Type} {d : Delim} {p : P α} {ts rest : List Tok} {a : α}
    (h : groupP d p ts = some (a, rest)) :
    ∃ inner, ts = Tok.group d inner :: rest ∧ p inner = some (a, []) := by
  cases ts with
  | nil => simp [groupP] at h
  | cons tok r =>
    cases tok with
    | group d2 inner =>
      simp only [groupP] at h
      split at h
      · rename_i hd
        subst hd
        cases hp : p inner with
        | none => rw [hp] at h; cases h
        | some ar =>
          obtain ⟨a2, l⟩ := ar
          rw [hp] at h
          cases l with
          | nil =>
            cases h
            exact ⟨inner, rfl, hp⟩
          | cons x xs => cases h
      · cases h
    | ident w => simp [groupP] at h
    | punct w => simp [groupP] at h
    | lit n => simp [groupP] at h

theorem optionP_some {α : Type} {p : P α} {ts rest : List Tok} {o : Option α}
    (h : optionP p ts = some (o, rest)) :
    (o = none ∧ rest = ts) ∨ (∃ a, o = some a ∧ p ts = some (a, rest)) := by
  simp only [optionP] at h
  cases hp : p ts with
  | none =>
    rw [hp] at h
    cases h
    exact Or.inl ⟨rfl, rfl⟩
  | some ar =>
    obtain ⟨a, r⟩ := ar
    rw [hp] at h
    cases h
    exact Or.inr ⟨a, rfl, rfl⟩

theorem pathSegFirst_some {ts rest : List Tok} {s : String}
    (h : pathSegFirst ts = some (s, rest)) : ts = Tok.ident s :: rest := by
  cases ts with
  | nil => simp [pathSegFirst] at h
  | cons tok r =>
    cases tok with
    | ident w =>
      simp only [pathSegFirst] at h
      cases h
      rfl
    | punct w => simp [pathSegFirst] at h
    | lit n => simp [pathSegFirst] at h
    | group d l => simp [pathSegFirst] at h

/-! ## Round-trip lemmas: each parser's consumed tokens are exactly what the
printer re-emits for the value it produced -/

theorem many0Aux_rt {α : Type} {p : P α} {pr : α → List Tok}
    (hp : ∀ ts a rest, p ts = some (a, rest) → pr a ++ rest = ts) :
    ∀ n ts xs rest, many0Aux p n ts = some (xs, rest) →
      (xs.map pr).flatten ++ rest = ts := by
  intro n
  induction n with
  | zero =>
    intro ts xs rest h
    simp only [many0Aux] at h
    cases h
    simp
  | succ n ih =>
    intro ts xs rest h
    simp only [many0Aux] at h
    split at h
    · cases h
      simp
    · rename_i a r1 hp1
      split at h
      · rename_i xs1 r2 hm
        cases h
        have h1 := hp ts a r1 hp1
        have h2 := ih r1 xs1 _ hm
        simp only [List.map_cons, List.flatten_cons, List.append_assoc]
        rw [h2, h1]
      · cases h

theorem many0_rt {α : Type} {p : P α} {pr : α → List Tok}
    (hp : ∀ ts a rest, p ts = some (a, rest) → pr a ++ rest = ts)
    {ts : List Tok} {xs : List α} {rest : List Tok}
    (h : many0 p ts = some (xs, rest)) : (xs.map pr).flatten ++ rest = ts :=
  many0Aux_rt hp (ts.length + 1) ts xs rest h

theorem pathSegTail_some {ts rest : List Tok} {s : String}
    (h : pathSegTail ts = some (s, rest)) :
    ts = Tok.punct pPathSep :: Tok.ident s :: rest := by
  cases ts with
  | nil => simp [pathSegTail] at h
  | cons tok r =>
    cases tok with
    | punct w =>
      cases r with
      | nil => simp [pathSegTail] at h
      | cons tok2 r2 =>
        cases tok2 with
        | ident w2 =>
          simp only [pathSegTail] at h
          split at h
          · rename_i hw
            subst hw
            cases h
            rfl
          · cases h
        | punct w2 => simp [pathSegTail] at h
        | lit n => simp [pathSegTail] at h
        | group d l => simp [pathSegTail] at h
    | ident w => simp [pathSegTail] at h
    | lit n => simp [pathSegTail] at h
    | group d l => simp [pathSegTail] at h

theorem parse_mod_style_rt {ts rest : List Tok} {p : Path}
    (h : parse_mod_style ts = some (p, rest)) : p.to_tokens ++ rest = ts := by
  simp only [parse_mod_style] at h
  split at h
  · cases h
  · rename_i s r1 h1
    split at h
    · rename_i ss r2 h2
      cases h
      have hfirst := pathSegFirst_some h1
      have htail := @many0_rt String pathSegTail
        (fun t => [Tok.punct pPathSep, Tok.ident t])
        (fun ts2 a r ha => by rw [pathSegTail_some ha]; rfl) r1 ss rest h2
      rw [hfirst]
      simp only [Path.to_tokens, List.cons_append]
      rw [← htail]
    · cases h

theorem parseTermAux_keeps {α : Type} {p : P α} {Q : α → Prop}
    (hp : ∀ ts a rest, p ts = some (a, rest) → Q a) :
    ∀ n ts items, parseTermAux p n ts = some items → ∀ x ∈ items, Q x.1 := by
  intro n
  induction n with
  | zero =>
    intro ts items h x hx
    cases ts with
    | nil =>
      simp only [parseTermAux] at h
      cases h
      simp at hx
    | cons t r => simp [parseTermAux] at h
  | succ n ih =>
    intro ts items h x hx
    cases ts with
    | nil =>
      simp only [parseTermAux] at h
      cases h
      simp at hx
    | cons t r =>
      simp only [parseTermAux] at h
      split at h
      · cases h
      · rename_i a rest1 hp1
        have hQ := hp (t :: r) a rest1 hp1
        split at h
        · cases h
          simp only [List.mem_singleton] at hx
          subst hx
          exact hQ
        · rename_i w r2
          split at h
          · split at h
            · rename_i items2 hrec
              cases h
              simp only [List.mem_cons] at hx
              cases hx with
              | inl hx1 => subst hx1; exact hQ
              | inr hx2 => exact ih r2 items2 hrec x hx2
            · cases h
          · cases h
        · cases h

theorem parseTermAux_rt {α : Type} {p : P α} {pr : α → List Tok}
    (hp : ∀ ts a rest, p ts = some (a, rest) → pr a ++ rest = ts) :
    ∀ n ts items, parseTermAux p n ts = some items →
      Delimited.to_tokens pr ⟨items⟩ = ts := by
  intro n
  induction n with
  | zero =>
    intro ts items h
    cases ts with
    | nil =>
      simp only [parseTermAux] at h
      cases h
      simp [Delimited.to_tokens]
    | cons t r => simp [parseTermAux] at h
  | succ n ih =>
    intro ts items h
    cases ts with
    | nil =>
      simp only [parseTermAux] at h
      cases h
      simp [Delimited.to_tokens]
    | cons t r =>
      simp only [parseTermAux] at h
      split at h
      · cases h
      · rename_i a rest1 hp1
        have hcons := hp (t :: r) a rest1 hp1
        split at h
        · cases h
          simp only [Delimited.to_tokens, List.map_cons, List.map_nil,
            List.flatten_cons, List.flatten_nil, List.append_nil]
          rw [← hcons]
          simp
        · rename_i w r2
          split at h
          · rename_i hw
            subst hw
            split at h
            · rename_i items2 hrec
              cases h
              have h2 := ih r2 items2 hrec
              simp only [Delimited.to_tokens, List.map_cons, List.flatten_cons] at h2 ⊢
              rw [h2, ← hcons]
              simp
            · cases h
          · cases h
        · cases h

theorem parse_terminated_with_some {α : Type} {p : P α} {ts rest : List Tok}
    {d : Delimited α}
    (h : parse_terminated_with p ts = some (d, rest)) :
    rest = [] ∧ parseTermAux p (ts.length + 1) ts = some d.inner := by
  simp only [parse_terminated_with] at h
  split at h
  · rename_i items h1
    cases h
    exact ⟨rfl, h1⟩
  · cases h

/-! ## Inversion of the `Visibility::parse` branches -/

theorem visCrateBranch_inv {ts rest : List Tok} {v : Visibility}
    (h : visCrateBranch ts = some (v, rest)) :
    v = Visibility.Crate ⟨(), (), ()⟩ ∧
      ts = Tok.ident kwPub :: Tok.group Delim.paren [Tok.ident kwCrate] :: rest := by
  simp only [visCrateBranch] at h
  split at h
  · cases h
  · rename_i u r1 hk
    split at h
    · cases h
    · rename_i u2 r2 hg
      cases h
      obtain ⟨inner, hr1, hin⟩ := groupP_some hg
      have hinner := keywordP_some hin
      subst hinner
      rw [keywordP_some hk, hr1]
      exact ⟨rfl, rfl⟩

theorem visSelfBranch_inv {ts rest : List Tok} {v : Visibility}
    (h : visSelfBranch ts = some (v, rest)) :
    v = Visibility.Restricted ⟨(), (), none, ⟨[kwSelf]⟩⟩ ∧
      ts = Tok.ident kwPub :: Tok.group Delim.paren [Tok.ident kwSelf] :: rest := by
  simp only [visSelfBranch] at h
  split at h
  · cases h
  · rename_i u r1 hk
    split at h
    · cases h
    · rename_i u2 r2 hg
      cases h
      obtain ⟨inner, hr1, hin⟩ := groupP_some hg
      have hinner := keywordP_some hin
      subst hinner
      rw [keywordP_some hk, hr1]
      exact ⟨rfl, rfl⟩

theorem visSuperBranch_inv {ts rest : List Tok} {v : Visibility}
    (h : visSuperBranch ts = some (v, rest)) :
    v = Visibility.Restricted ⟨(), (), none, ⟨[kwSuper]⟩⟩ ∧
      ts = Tok.ident kwPub :: Tok.group Delim.paren [Tok.ident kwSuper] :: rest := by
  simp only [visSuperBranch] at h
  split at h
  · cases h
  · rename_i u r1 hk
    split at h
    · cases h
    · rename_i u2 r2 hg
      cases h
      obtain ⟨inner, hr1, hin⟩ := groupP_some hg
      have hinner := keywordP_some hin
      subst hinner
      rw [keywordP_some hk, hr1]
      exact ⟨rfl, rfl⟩

theorem visInInner_some {ts rest : List Tok} {t : Unit} {p : Path}
    (h : visInInner ts = some ((t, p), rest)) :
    ts = Tok.ident kwIn :: (p.to_tokens ++ rest) := by
  simp only [visInInner] at h
  split at h
  · cases h
  · rename_i u r1 hk
    split at h
    · cases h
    · rename_i p2 r2 hm
      cases h
      rw [keywordP_some hk, ← parse_mod_style_rt hm]

theorem visInBranch_inv {ts rest : List Tok} {v : Visibility}
    (h : visInBranch ts = some (v, rest)) :
    ∃ path : Path, v = Visibility.Restricted ⟨(), (), some (), path⟩ ∧
      ts = Tok.ident kwPub ::
        Tok.group Delim.paren (Tok.ident kwIn :: path.to_tokens) :: rest := by
  simp only [visInBranch] at h
  split at h
  · cases h
  · rename_i u r1 hk
    split at h
    · cases h
    · rename_i t p r2 hg
      cases h
      obtain ⟨inner, hr1, hin⟩ := groupP_some hg
      have hinner := visInInner_some hin
      refine ⟨p, rfl, ?_⟩
      rw [keywordP_some hk, hr1, hinner]
      simp

theorem visPubBranch_inv {ts rest : List Tok} {v : Visibility}
    (h : visPubBranch ts = some (v, rest)) :
    v = Visibility.Public ⟨()⟩ ∧ ts = Tok.ident kwPub :: rest := by
  simp only [visPubBranch] at h
  split at h
  · cases h
  · rename_i u r1 hk
    cases h
    exact ⟨rfl, keywordP_some hk⟩

theorem visibility_rt :
    ∀ ts v rest, Visibility.parse ts = some (v, rest) →
      Visibility.to_tokens v ++ rest = ts := by
  intro ts v rest h
  simp only [Visibility.parse, alt2] at h
  split at h
  · rename_i r hc
    cases h
    obtain ⟨hv, hts⟩ := visCrateBranch_inv hc
    subst hv
    rw [hts]
    rfl
  · split at h
    · rename_i r hc
      cases h
      obtain ⟨hv, hts⟩ := visSelfBranch_inv hc
      subst hv
      rw [hts]
      rfl
    · split at h
      · rename_i r hc
        cases h
        obtain ⟨hv, hts⟩ := visSuperBranch_inv hc
        subst hv
        rw [hts]
        rfl
      · split at h
        · rename_i r hc
          cases h
          obtain ⟨path, hv, hts⟩ := visInBranch_inv hc
          subst hv
          rw [hts]
          rfl
        · split at h
          · rename_i r hc
            cases h
            obtain ⟨hv, hts⟩ := visPubBranch_inv hc
            subst hv
            rw [hts]
            rfl
          · simp only [visEpsilonBranch] at h
            cases h
            rfl

/-! ## Round trip and shape of the field and variant parsers -/

theorem attrs_rt {ts : List Tok} {xs : List Attribute} {rest : List Tok}
    (h : many0 attrParseOuter ts = some (xs, rest)) : printAttrs xs ++ rest = ts :=
  @many0_rt Attribute attrParseOuter Attribute.to_tokens
    (fun ts2 a r ha => by rw [attrP_some ha]; rfl) ts xs rest h

theorem field_parse_named_rt :
    ∀ ts f rest, Field.parse_named ts = some (f, rest) →
      Field.to_tokens f ++ rest = ts := by
  intro ts f rest h
  simp only [Field.parse_named] at h
  split at h
  · cases h
  · rename_i attrs r1 hA
    split at h
    · cases h
    · rename_i vis r2 hV
      split at h
      · cases h
      · rename_i id r3 hI
        split at h
        · cases h
        · rename_i u r4 hC
          split at h
          · cases h
          · rename_i ty r5 hT
            cases h
            rw [← attrs_rt hA, ← visibility_rt r1 vis r2 hV,
              identP_some hI, punctP_some hC, tyP_some hT]
            simp [Field.to_tokens, tokensOrDefaultColon]

theorem field_parse_unnamed_rt :
    ∀ ts f rest, Field.parse_unnamed ts = some (f, rest) →
      Field.to_tokens f ++ rest = ts := by
  intro ts f rest h
  simp only [Field.parse_unnamed] at h
  split at h
  · cases h
  · rename_i attrs r1 hA
    split at h
    · cases h
    · rename_i vis r2 hV
      split at h
      · cases h
      · rename_i ty r3 hT
        cases h
        rw [← attrs_rt hA, ← visibility_rt r1 vis r2 hV, tyP_some hT]
        simp [Field.to_tokens]

theorem fieldsNamed_rt :
    ∀ ts f rest, FieldsNamed.parse ts = some (f, rest) →
      FieldsNamed.to_tokens f ++ rest = ts := by
  intro ts f rest h
  simp only [FieldsNamed.parse] at h
  split at h
  · cases h
  · rename_i d r hg
    cases h
    obtain ⟨inner, hts, hin⟩ := groupP_some hg
    obtain ⟨hnil, hterm⟩ := parse_terminated_with_some hin
    have hrt := parseTermAux_rt field_parse_named_rt (inner.length + 1) inner d.inner hterm
    rw [hts]
    simp only [FieldsNamed.to_tokens, List.cons_append, List.nil_append]
    rw [← hrt]

theorem fieldsUnnamed_rt :
    ∀ ts f rest, FieldsUnnamed.parse ts = some (f, rest) →
      FieldsUnnamed.to_tokens f ++ rest = ts := by
  intro ts f rest h
  simp only [FieldsUnnamed.parse] at h
  split at h
  · cases h
  · rename_i d r hg
    cases h
    obtain ⟨inner, hts, hin⟩ := groupP_some hg
    obtain ⟨hnil, hterm⟩ := parse_terminated_with_some hin
    have hrt := parseTermAux_rt field_parse_unnamed_rt (inner.length + 1) inner d.inner hterm
    rw [hts]
    simp only [FieldsUnnamed.to_tokens, List.cons_append, List.nil_append]
    rw [← hrt]

theorem fieldsAlt_rt :
    ∀ ts fs rest, fieldsAlt ts = some (fs, rest) →
      Fields.to_tokens fs ++ rest = ts := by
  intro ts fs rest h
  simp only [fieldsAlt, alt2] at h
  split at h
  · rename_i r hn
    cases h
    split at hn
    · rename_i f r2 hf
      cases hn
      exact fieldsNamed_rt ts f rest hf
    · cases hn
  · split at h
    · rename_i r hn
      cases h
      split at hn
      · rename_i f r2 hf
        cases hn
        exact fieldsUnnamed_rt ts f rest hf
      · cases hn
    · cases h
      rfl

theorem discrP_rt :
    ∀ ts d rest, discrP ts = some (d, rest) →
      Tok.punct pEq :: Expr.to_tokens d.2 ++ rest = ts := by
  intro ts d rest h
  simp only [discrP] at h
  split at h
  · cases h
  · rename_i u r1 hEq
    split at h
    · cases h
    · rename_i e r2 hE
      cases h
      rw [punctP_some hEq, exprP_some hE]
      rfl

theorem variant_rt :
    ∀ ts v rest, Variant.parse ts = some (v, rest) →
      Variant.to_tokens v ++ rest = ts := by
  intro ts v rest h
  simp only [Variant.parse] at h
  split at h
  · cases h
  · rename_i attrs r1 hA
    split at h
    · cases h
    · rename_i id r2 hI
      split at h
      · cases h
      · rename_i fs r3 hF
        split at h
        · cases h
        · rename_i d r4 hD
          cases h
          rcases optionP_some hD with ⟨hd, hr⟩ | ⟨de, hd, hsome⟩
          · subst hd
            subst hr
            rw [← attrs_rt hA, identP_some hI, ← fieldsAlt_rt _ _ _ hF]
            simp [Variant.to_tokens]
          · subst hd
            have hdisc := discrP_rt _ de _ hsome
            rw [← attrs_rt hA, identP_some hI, ← fieldsAlt_rt _ _ _ hF, ← hdisc]
            simp [Variant.to_tokens]

theorem field_parse_named_shape :
    ∀ ts f rest, Field.parse_named ts = some (f, rest) →
      f.ident.isSome = true ∧ f.colon_token = some () := by
  intro ts f rest h
  simp only [Field.parse_named] at h
  split at h
  · cases h
  · rename_i attrs r1 hA
    split at h
    · cases h
    · rename_i vis r2 hV
      split at h
      · cases h
      · rename_i id r3 hI
        split at h
        · cases h
        · rename_i u r4 hC
          split at h
          · cases h
          · rename_i ty r5 hT
            cases h
            exact ⟨rfl, rfl⟩

theorem field_parse_unnamed_shape :
    ∀ ts f rest, Field.parse_unnamed ts = some (f, rest) →
      f.ident = none ∧ f.colon_token = none := by
  intro ts f rest h
  simp only [Field.parse_unnamed] at h
  split at h
  · cases h
  · rename_i attrs r1 hA
    split at h
    · cases h
    · rename_i vis r2 hV
      split at h
      · cases h
      · rename_i ty r3 hT
        cases h
        exact ⟨rfl, rfl⟩

theorem alt2_some_of {α : Type} (p q : P α) (ts : List Tok)
    (h : ∃ vr, q ts = some vr) : ∃ vr, alt2 p q ts = some vr := by
  unfold alt2
  cases hp : p ts with
  | some r => exact ⟨r, rfl⟩
  | none => exact h

/-! ## Concrete token sequences and trees used as evaluation examples -/

/-- Example word spelled `Foo`. -/
def sFoo : String := "Foo"

/-- Example word spelled `Point`. -/
def sPoint : String := "Point"

/-- Example word spelled `x`. -/
def sx : String := "x"

/-- Example word spelled `T`. -/
def sT : String := "T"

/-- Example word spelled `a`. -/
def sA : String := "a"

/-- Example word spelled `b`. -/
def sB : String := "b"

/-- Example word spelled `doc`. -/
def sDoc : String := "doc"

/-- Tokens of `#[doc] Point { x: T, }`. -/
def egVariantToks : List Tok :=
  [Tok.punct pPound, Tok.group Delim.bracket [Tok.ident sDoc],
   Tok.ident sPoint,
   Tok.group Delim.brace
     [Tok.ident sx, Tok.punct pColon, Tok.ident sT, Tok.punct pComma]]

/-- The tree that parsing `egVariantToks` produces. -/
def egVariant : Variant :=
  ⟨[⟨[Tok.ident sDoc]⟩], sPoint,
   Fields.Named ⟨(), ⟨[(⟨[], Visibility.Inherited, some sx, some (), sT⟩, some ())]⟩⟩,
   none⟩

/-- Tokens of `pub(crate)`. -/
def egPubCrateToks : List Tok :=
  [Tok.ident kwPub, Tok.group Delim.paren [Tok.ident kwCrate]]

/-- Tokens of `pub(in a::b)`. -/
def egPubInToks : List Tok :=
  [Tok.ident kwPub,
   Tok.group Delim.paren
     [Tok.ident kwIn, Tok.ident sA, Tok.punct pPathSep, Tok.ident sB]]

/-- Tokens of `pub(self)`. -/
def egPubSelfToks : List Tok :=
  [Tok.ident kwPub, Tok.group Delim.paren [Tok.ident kwSelf]]

/-- Tokens of `Foo = 1`. -/
def egFooEq1Toks : List Tok := [Tok.ident sFoo, Tok.punct pEq, Tok.lit 1]

/-- The tree that parsing `egFooEq1Toks` produces. -/
def egFooVariant : Variant := ⟨[], sFoo, Fields.Unit, some ((), Tok.lit 1)⟩

/-- Tokens of `{ x: T }`. -/
def egNamedToks : List Tok :=
  [Tok.group Delim.brace [Tok.ident sx, Tok.punct pColon, Tok.ident sT]]

/-- Tokens of `(T)`. -/
def egUnnamedToks : List Tok := [Tok.group Delim.paren [Tok.ident sT]]

/-- Tokens of `pub(self) x: T`. -/
def egNamedFieldToks : List Tok :=
  [Tok.ident kwPub, Tok.group Delim.paren [Tok.ident kwSelf],
   Tok.ident sx, Tok.punct pColon, Tok.ident sT]

/-- A directly constructed field with `ident` present but `colon_token`
absent — an invariant-violating tree no parse routine produces. -/
def egNoColonField : Field := ⟨[], Visibility.Inherited, some sx, none, sT⟩

/-- A directly constructed field with neither `ident` nor `colon_token`. -/
def egBareField : Field := ⟨[], Visibility.Inherited, none, none, sT⟩

/-- Tokens of `x: T`. -/
def egPlainNamedFieldToks : List Tok :=
  [Tok.ident sx, Tok.punct pColon, Tok.ident sT]

/-- The field that parsing `x: T` with `Field::parse_named` produces. -/
def egNamedField : Field := ⟨[], Visibility.Inherited, some sx, some (), sT⟩

/-- The field that parsing `T` with `Field::parse_unnamed` produces. -/
def egUnnamedField : Field := ⟨[], Visibility.Inherited, none, none, sT⟩

/-- The tree that parsing `{ x: T }` produces. -/
def egFieldsNamedTree : FieldsNamed := ⟨(), ⟨[(egNamedField, none)]⟩⟩

/-- The tree that parsing `(T)` produces. -/
def egFieldsUnnamedTree : FieldsUnnamed := ⟨(), ⟨[(egUnnamedField, none)]⟩⟩

/-! ## The claims -/

/-- C1: for every syntactically valid declaration fragment `D` (a `Variant`,
`FieldsNamed`, `FieldsUnnamed`, `Field` by either routine, or `Visibility`),
printing the tree obtained by parsing `D` reproduces `D` token for token. -/
theorem C1_round_trip :
    (∀ ts v, Variant.parse ts = some (v, []) → Variant.to_tokens v = ts) ∧
    (∀ ts f, FieldsNamed.parse ts = some (f, []) → FieldsNamed.to_tokens f = ts) ∧
    (∀ ts f, FieldsUnnamed.parse ts = some (f, []) → FieldsUnnamed.to_tokens f = ts) ∧
    (∀ ts f, Field.parse_named ts = some (f, []) → Field.to_tokens f = ts) ∧
    (∀ ts f, Field.parse_unnamed ts = some (f, []) → Field.to_tokens f = ts) ∧
    (∀ ts v, Visibility.parse ts = some (v, []) → Visibility.to_tokens v = ts) := by
  refine ⟨?_, ?_, ?_, ?_, ?_, ?_⟩ <;> intro ts x h
  · simpa using variant_rt ts x [] h
  · simpa using fieldsNamed_rt ts x [] h
  · simpa using fieldsUnnamed_rt ts x [] h
  · simpa using field_parse_named_rt ts x [] h
  · simpa using field_parse_unnamed_rt ts x [] h
  · simpa using visibility_rt ts x [] h

/-- Witness for C1 at the concrete fragments `#[doc] Point { x: T, }`,
`pub(in a::b)` and `pub(self) x: T`. -/
theorem C1_round_trip_witness :
    Variant.to_tokens egVariant = egVariantToks ∧
    Visibility.to_tokens (Visibility.Restricted ⟨(), (), some (), ⟨[sA, sB]⟩⟩)
      = egPubInToks ∧
    Field.to_tokens
        ⟨[], Visibility.Restricted ⟨(), (), none, ⟨[kwSelf]⟩⟩, some sx, some (), sT⟩
      = egNamedFieldToks :=
  ⟨C1_round_trip.1 egVariantToks egVariant rfl,
   C1_round_trip.2.2.2.2.2 egPubInToks _ rfl,
   C1_round_trip.2.2.2.1 egNamedFieldToks _ rfl⟩

/-- C2: `pub(crate)` parses to `Visibility::Crate` (never `Restricted`),
`pub(in a::b)` parses to `Restricted` with `in_token = Some` and path
`a::b`, and any input with no leading `pub` parses to `Inherited` consuming
zero tokens. -/
theorem C2_visibility_alternation :
    (Visibility.parse egPubCrateToks = some (Visibility.Crate ⟨(), (), ()⟩, [])) ∧
    (Visibility.parse egPubInToks
       = some (Visibility.Restricted ⟨(), (), some (), ⟨[sA, sB]⟩⟩, [])) ∧
    (∀ ts, (∀ rest, ts ≠ Tok.ident kwPub :: rest) →
       Visibility.parse ts = some (Visibility.Inherited, ts)) := by
  refine ⟨rfl, rfl, ?_⟩
  intro ts hts
  have hk : keywordP kwPub ts = none := by
    cases ts with
    | nil => rfl
    | cons t r =>
      cases t with
      | ident w =>
        simp only [keywordP]
        split
        · rename_i hw
          subst hw
          exact absurd rfl (hts r)
        · rfl
      | punct w => rfl
      | lit n => rfl
      | group d l => rfl
  have h1 : visCrateBranch ts = none := by simp [visCrateBranch, hk]
  have h2 : visSelfBranch ts = none := by simp [visSelfBranch, hk]
  have h3 : visSuperBranch ts = none := by simp [visSuperBranch, hk]
  have h4 : visInBranch ts = none := by simp [visInBranch, hk]
  have h5 : visPubBranch ts = none := by simp [visPubBranch, hk]
  simp [Visibility.parse, alt2, h1, h2, h3, h4, h5, visEpsilonBranch]

/-- Witness for C2: an input headed by the word `Foo` has no leading `pub`
and parses to `Inherited` consuming nothing. -/
theorem C2_visibility_alternation_witness :
    Visibility.parse [Tok.ident sFoo] = some (Visibility.Inherited, [Tok.ident sFoo]) :=
  C2_visibility_alternation.2.2 [Tok.ident sFoo]
    (fun rest h => by simp [sFoo, kwPub] at h)

/-- C3: in any parsed `Fields::Named` every contained field has
`ident.is_some()`, and in any parsed `Fields::Unnamed` every contained
field has `ident.is_none()`. -/
theorem C3_tag_consistency :
    (∀ ts fn rest, FieldsNamed.parse ts = some (fn, rest) →
       ∀ x ∈ fn.fields.inner, x.1.ident.isSome = true) ∧
    (∀ ts fu rest, FieldsUnnamed.parse ts = some (fu, rest) →
       ∀ x ∈ fu.fields.inner, x.1.ident = none) := by
  constructor
  · intro ts fn rest h x hx
    simp only [FieldsNamed.parse] at h
    split at h
    · cases h
    · rename_i d r hg
      cases h
      obtain ⟨inner, hts, hin⟩ := groupP_some hg
      obtain ⟨hnil, hterm⟩ := parse_terminated_with_some hin
      exact parseTermAux_keeps
        (fun ts2 f r2 hf => (field_parse_named_shape ts2 f r2 hf).1)
        _ inner d.inner hterm x hx
  · intro ts fu rest h x hx
    simp only [FieldsUnnamed.parse] at h
    split at h
    · cases h
    · rename_i d r hg
      cases h
      obtain ⟨inner, hts, hin⟩ := groupP_some hg
      obtain ⟨hnil, hterm⟩ := parse_terminated_with_some hin
      exact parseTermAux_keeps
        (fun ts2 f r2 hf => (field_parse_unnamed_shape ts2 f r2 hf).1)
        _ inner d.inner hterm x hx

/-- Witness for C3 at the parsed fragments `{ x: T }` and `(T)`. -/
theorem C3_tag_consistency_witness :
    egNamedField.ident.isSome = true ∧ egUnnamedField.ident = none :=
  ⟨C3_tag_consistency.1 egNamedToks egFieldsNamedTree [] rfl (egNamedField, none)
     (List.mem_singleton.mpr rfl),
   C3_tag_consistency.2 egUnnamedToks egFieldsUnnamedTree [] rfl (egUnnamedField, none)
     (List.mem_singleton.mpr rfl)⟩

/-- C4: every field produced by `Field::parse_named` has `ident` and
`colon_token` both `Some`, every field produced by `Field::parse_unnamed`
has both `None`; in both cases `colon_token.is_some() == ident.is_some()`. -/
theorem C4_colon_iff_ident :
    (∀ ts f rest, Field.parse_named ts = some (f, rest) →
       f.ident.isSome = true ∧ f.colon_token.isSome = true ∧
         f.colon_token.isSome = f.ident.isSome) ∧
    (∀ ts f rest, Field.parse_unnamed ts = some (f, rest) →
       f.ident = none ∧ f.colon_token = none ∧
         f.colon_token.isSome = f.ident.isSome) := by
  constructor
  · intro ts f rest h
    obtain ⟨hi, hc⟩ := field_parse_named_shape ts f rest h
    refine ⟨hi, ?_, ?_⟩ <;> simp [hc, hi]
  · intro ts f rest h
    obtain ⟨hi, hc⟩ := field_parse_unnamed_shape ts f rest h
    refine ⟨hi, hc, ?_⟩
    simp [hc, hi]

/-- Witness for C4 at the parsed fragments `x: T` and `T`. -/
theorem C4_colon_iff_ident_witness :
    (egNamedField.ident.isSome = true ∧ egNamedField.colon_token.isSome = true ∧
      egNamedField.colon_token.isSome = egNamedField.ident.isSome) ∧
    (egUnnamedField.ident = none ∧ egUnnamedField.colon_token = none ∧
      egUnnamedField.colon_token.isSome = egUnnamedField.ident.isSome) :=
  ⟨C4_colon_iff_ident.1 egPlainNamedFieldToks egNamedField [] rfl,
   C4_colon_iff_ident.2 [Tok.ident sT] egUnnamedField [] rfl⟩

/-- C5: a `Visibility::Restricted` produced by `Visibility::parse` has
`in_token = None` only when its captured path is `self` or `super`, and the
`pub(in path)` branch always sets `in_token` to `Some`. -/
theorem C5_in_token_none_only_self_super :
    (∀ ts vr rest, Visibility.parse ts = some (Visibility.Restricted vr, rest) →
       vr.in_token = none →
         vr.path.segments = [kwSelf] ∨ vr.path.segments = [kwSuper]) ∧
    (∀ ts v rest, visInBranch ts = some (v, rest) →
       ∃ vr, v = Visibility.Restricted vr ∧ vr.in_token = some ()) := by
  constructor
  · intro ts vr rest h hnone
    simp only [Visibility.parse, alt2] at h
    split at h
    · rename_i r hc
      cases h
      obtain ⟨hv, _⟩ := visCrateBranch_inv hc
      cases hv
    · split at h
      · rename_i r hc
        cases h
        obtain ⟨hv, _⟩ := visSelfBranch_inv hc
        injection hv with h1
        subst h1
        exact Or.inl rfl
      · split at h
        · rename_i r hc
          cases h
          obtain ⟨hv, _⟩ := visSuperBranch_inv hc
          injection hv with h1
          subst h1
          exact Or.inr rfl
        · split at h
          · rename_i r hc
            cases h
            obtain ⟨path, hv, _⟩ := visInBranch_inv hc
            injection hv with h1
            subst h1
            cases hnone
          · split at h
            · rename_i r hc
              cases h
              obtain ⟨hv, _⟩ := visPubBranch_inv hc
              cases hv
            · simp only [visEpsilonBranch] at h
              cases h
  · intro ts v rest h
    obtain ⟨path, hv, _⟩ := visInBranch_inv h
    exact ⟨⟨(), (), some (), path⟩, hv, rfl⟩

/-- Witness for C5 at the parsed fragments `pub(self)` and `pub(in a::b)`. -/
theorem C5_in_token_none_only_self_super_witness :
    ((⟨(), (), none, ⟨[kwSelf]⟩⟩ : VisRestricted).path.segments = [kwSelf] ∨
      (⟨(), (), none, ⟨[kwSelf]⟩⟩ : VisRestricted).path.segments = [kwSuper]) ∧
    (∃ vr, (Visibility.Restricted ⟨(), (), some (), ⟨[sA, sB]⟩⟩ : Visibility)
        = Visibility.Restricted vr ∧ vr.in_token = some ()) :=
  ⟨C5_in_token_none_only_self_super.1 egPubSelfToks ⟨(), (), none, ⟨[kwSelf]⟩⟩ [] rfl rfl,
   C5_in_token_none_only_self_super.2 egPubInToks
     (Visibility.Restricted ⟨(), (), some (), ⟨[sA, sB]⟩⟩) [] rfl⟩

/-- C6: `Variant::parse` consumes attributes, an identifier, the ordered
fields alternation, then an optional `=` and expression, in that order; in
particular `Foo = 1` parses to a variant with `Unit` fields and
discriminant `Some((=, 1))`. -/
theorem C6_variant_order_and_discriminant :
    (Variant.parse egFooEq1Toks = some (egFooVariant, [])) ∧
    (∀ ts v rest, Variant.parse ts = some (v, rest) →
       ∃ r1 r2 r3,
         many0 attrParseOuter ts = some (v.attrs, r1) ∧
         identP r1 = some (v.ident, r2) ∧
         fieldsAlt r2 = some (v.fields, r3) ∧
         optionP discrP r3 = some (v.discriminant, rest)) := by
  refine ⟨rfl, ?_⟩
  intro ts v rest h
  simp only [Variant.parse] at h
  split at h
  · cases h
  · rename_i attrs r1 hA
    split at h
    · cases h
    · rename_i id r2 hI
      split at h
      · cases h
      · rename_i fs r3 hF
        split at h
        · cases h
        · rename_i d r4 hD
          cases h
          exact ⟨_, _, _, hA, hI, hF, hD⟩

/-- Witness for C6: the parse of `Foo = 1` decomposes into the four ordered
steps. -/
theorem C6_variant_order_and_discriminant_witness :
    ∃ r1 r2 r3,
      many0 attrParseOuter egFooEq1Toks = some (egFooVariant.attrs, r1) ∧
      identP r1 = some (egFooVariant.ident, r2) ∧
      fieldsAlt r2 = some (egFooVariant.fields, r3) ∧
      optionP discrP r3 = some (egFooVariant.discriminant, []) :=
  C6_variant_order_and_discriminant.2 egFooEq1Toks egFooVariant [] rfl

/-- C7: `VisRestricted::to_tokens` re-emits the stored `in_token` exactly as
captured, for every path: it emits `in` iff `in_token` is `Some`, never
synthesizing or dropping it based on the path's shape. -/
theorem C7_restricted_printer_verbatim :
    ∀ path : Path,
      (VisRestricted.to_tokens ⟨(), (), none, path⟩
         = [Tok.ident kwPub, Tok.group Delim.paren path.to_tokens]) ∧
      (∀ t : Unit, VisRestricted.to_tokens ⟨(), (), some t, path⟩
         = [Tok.ident kwPub,
            Tok.group Delim.paren (Tok.ident kwIn :: path.to_tokens)]) :=
  fun _ => ⟨rfl, fun _ => rfl⟩

/-- C8: the printer is total — every well-formed AST node of each printable
type always yields a token sequence, with no failure path. -/
theorem C8_printer_total :
    (∀ v : Variant, ∃ ts, Variant.to_tokens v = ts) ∧
    (∀ f : FieldsNamed, ∃ ts, FieldsNamed.to_tokens f = ts) ∧
    (∀ f : FieldsUnnamed, ∃ ts, FieldsUnnamed.to_tokens f = ts) ∧
    (∀ f : Field, ∃ ts, Field.to_tokens f = ts) ∧
    (∀ fs : Fields, ∃ ts, Fields.to_tokens fs = ts) ∧
    (∀ v : VisPublic, ∃ ts, VisPublic.to_tokens v = ts) ∧
    (∀ v : VisCrate, ∃ ts, VisCrate.to_tokens v = ts) ∧
    (∀ v : VisRestricted, ∃ ts, VisRestricted.to_tokens v = ts) ∧
    (∀ v : Visibility, ∃ ts, Visibility.to_tokens v = ts) :=
  ⟨fun _ => ⟨_, rfl⟩, fun _ => ⟨_, rfl⟩, fun _ => ⟨_, rfl⟩, fun _ => ⟨_, rfl⟩,
   fun _ => ⟨_, rfl⟩, fun _ => ⟨_, rfl⟩, fun _ => ⟨_, rfl⟩, fun _ => ⟨_, rfl⟩,
   fun _ => ⟨_, rfl⟩⟩

/-- C9: `Visibility::parse` never fails — its final branch is an epsilon
yielding `Inherited`, so every input produces a success. -/
theorem C9_visibility_parse_never_fails :
    ∀ ts, ∃ v rest, Visibility.parse ts = some (v, rest) := by
  intro ts
  have h : ∃ vr, Visibility.parse ts = some vr := by
    simp only [Visibility.parse]
    apply alt2_some_of
    apply alt2_some_of
    apply alt2_some_of
    apply alt2_some_of
    apply alt2_some_of
    exact ⟨(Visibility.Inherited, ts), rfl⟩
  obtain ⟨⟨v, rest⟩, hv⟩ := h
  exact ⟨v, rest, hv⟩

/-- C10: `Field::to_tokens` on a directly constructed field with `ident`
present but `colon_token` absent still emits a default-synthesized colon
after the identifier, and on a field with no `ident` emits neither
identifier nor colon. -/
theorem C10_field_printer_default_colon :
    (∀ f : Field, ∀ i, f.ident = some i → f.colon_token = none →
       Field.to_tokens f = printAttrs f.attrs ++ Visibility.to_tokens f.vis ++
         [Tok.ident i, Tok.punct pColon] ++ [Tok.ident f.ty]) ∧
    (∀ f : Field, f.ident = none →
       Field.to_tokens f = printAttrs f.attrs ++ Visibility.to_tokens f.vis ++
         [Tok.ident f.ty]) := by
  constructor
  · intro f i hi hc
    simp [Field.to_tokens, hi, hc, tokensOrDefaultColon]
  · intro f hi
    simp [Field.to_tokens, hi]

/-- Witness for C10 at the invariant-violating field `{ident = some x,
colon_token = none}` and the bare field with no identifier. -/
theorem C10_field_printer_default_colon_witness :
    (Field.to_tokens egNoColonField
       = printAttrs egNoColonField.attrs ++ Visibility.to_tokens egNoColonField.vis ++
           [Tok.ident sx, Tok.punct pColon] ++ [Tok.ident egNoColonField.ty]) ∧
    (Field.to_tokens egBareField
       = printAttrs egBareField.attrs ++ Visibility.to_tokens egBareField.vis ++
           [Tok.ident egBareField.ty]) :=
  ⟨C10_field_printer_default_colon.1 egNoColonField sx rfl rfl,
   C10_field_printer_default_colon.2 egBareField rfl⟩

end Syn
